import Mathlib

/-!
Shallow embedding of the firmware fingerprint extraction and candidate
matching engine of `selfdrive/car/retrofit/values.py`, together with the
CAN steering command builder of `selfdrive/car/retrofit/retrofitcan.py`.

Byte strings are modelled as `List Nat` (one entry per byte).  Python
dictionaries built by the code are modelled as association lists; the
`defaultdict(set)` used by `get_platform_codes` becomes an association
list from keys to duplicate-free lists of sub-versions (`addCode`).
The module-level constants `FW_VERSIONS` and `FUZZY_EXCLUDED_PLATFORMS`
are passed to `match_fw_to_car_fuzzy` as explicit parameters; the
concrete catalog of the source file is `FW_VERSIONS` below.
-/

/-- A firmware blob: a raw byte string, one `Nat` per byte. -/
abbrev Bytes := List Nat

/-- ECU kinds appearing in the retrofit module (from `cereal` `car.CarParams.Ecu`). -/
inductive EcuKind where
  | fwdCamera
  | abs
  | eps
  | dsu
  | engine
  | fwdRadar
deriving DecidableEq

/-- An ECU identity: kind, diagnostic address, optional sub-address
(the tuples used as keys of `FW_VERSIONS`). -/
structure EcuKey where
  kind : EcuKind
  addr : Nat
  subAddr : Option Nat
deriving DecidableEq

/-- One candidate entry of `FW_VERSIONS`: ECU key to list of firmware blobs. -/
abbrev Fw := List (EcuKey × List Bytes)

/-- The vehicle catalog: candidate name to its firmware table. -/
abbrev Catalog := List (String × Fw)

/-- The observed (live) fingerprint: (addr, sub-address) to blobs,
modelling the `live_fw_versions` dictionary. -/
abbrev LiveFw := List ((Nat × Option Nat) × List Bytes)

/-- `FW_CHUNK_LEN = 16` from the source. -/
def FW_CHUNK_LEN : Nat := 16

/-- `PLATFORM_CODE_ECUS = [Ecu.fwdCamera, Ecu.abs, Ecu.eps]` from the source. -/
def PLATFORM_CODE_ECUS : List EcuKind := [EcuKind.fwdCamera, EcuKind.abs, EcuKind.eps]

/-- The search for `FW_LEN_CODE` (regex `^[\x01-\x03]`) plus the
`fw = fw[1:]` slice: returns the chunk count and the payload.  When the
first byte is in 1..3 it is the chunk count and the rest is the payload;
otherwise the count is 1 and the payload is the whole blob. -/
def splitLenCode (fw : Bytes) : Nat × Bytes :=
  match fw with
  | [] => (1, [])
  | b :: rest => if 1 ≤ b ∧ b ≤ 3 then (b, rest) else (1, b :: rest)

/-- Drop leading bytes that are NUL (0) or space (32). -/
def stripLeft : Bytes → Bytes
  | [] => []
  | b :: rest => if b = 0 ∨ b = 32 then stripLeft rest else b :: rest

/-- Python `bytes.strip(b'\x00 ')`: drop NUL and space bytes from both ends. -/
def stripBytes (l : Bytes) : Bytes :=
  (stripLeft (stripLeft l).reverse).reverse

/-- The regex character class `[A-Z0-9]` over bytes. -/
def isUpperDigit (b : Nat) : Bool :=
  (65 ≤ b && b ≤ 90) || (48 ≤ b && b ≤ 57)

/-- `SHORT_FW_PATTERN.search` on a chunk of length 8.  The pattern is
eight `[A-Z0-9]` atoms (1 leading byte + 2 platform + 2 major_version +
3 sub_version), so on an 8-byte chunk a match exists exactly when every
byte, the leading one included, is in the class.  Returns
(platform-majorVersion key joined with 45, the dash byte; sub_version). -/
def matchShort (c : Bytes) : Option (Bytes × Bytes) :=
  if c.length = 8 ∧ c.all isUpperDigit = true then
    some (((c.drop 1).take 2) ++ 45 :: ((c.drop 3).take 2), (c.drop 5).take 3)
  else none

/-- `MEDIUM_FW_PATTERN.search` on a chunk of length 10: 5 part + 2
platform + 1 major_version + 2 sub_version, all `[A-Z0-9]`.  Returns
(part-platform-majorVersion key, sub_version). -/
def matchMedium (c : Bytes) : Option (Bytes × Bytes) :=
  if c.length = 10 ∧ c.all isUpperDigit = true then
    some ((c.take 5) ++ 45 :: ((c.drop 5).take 2) ++ 45 :: ((c.drop 7).take 1),
      (c.drop 8).take 2)
  else none

/-- `LONG_FW_PATTERN.search` on a chunk of length 12: 5 part + 2
platform + 2 major_version + 3 sub_version, all `[A-Z0-9]`. -/
def matchLong (c : Bytes) : Option (Bytes × Bytes) :=
  if c.length = 12 ∧ c.all isUpperDigit = true then
    some ((c.take 5) ++ 45 :: ((c.drop 5).take 2) ++ 45 :: ((c.drop 7).take 2),
      (c.drop 9).take 3)
  else none

/-- The per-blob body of the `get_platform_codes` loop: the platform
code key and sub-version this blob contributes, if any.  Mirrors the
length-code split, the `length_code * FW_CHUNK_LEN != len(fw)` skip, the
trim of the first 16-byte chunk (only `chunks[0]` is classified), and
the three length-dispatched patterns. -/
def blobCode (fw : Bytes) : Option (Bytes × Bytes) :=
  let lc := (splitLenCode fw).1
  let payload := (splitLenCode fw).2
  if lc * FW_CHUNK_LEN ≠ payload.length then none
  else
    let first_chunk := stripBytes (payload.take FW_CHUNK_LEN)
    if first_chunk.length = 8 then matchShort first_chunk
    else if first_chunk.length = 10 then matchMedium first_chunk
    else if first_chunk.length = 12 then matchLong first_chunk
    else none

/-- The codes dictionary: platform code key to its observed sub-versions. -/
abbrev CodesDict := List (Bytes × List Bytes)

/-- `codes[key].add(sub)` on `defaultdict(set)`: upsert into the
association list, keeping each sub-version list duplicate-free. -/
def addCode (d : CodesDict) (k : Bytes) (s : Bytes) : CodesDict :=
  match d with
  | [] => [(k, [s])]
  | (k0, ss) :: rest =>
    if k0 = k then (k0, if s ∈ ss then ss else ss ++ [s]) :: rest
    else (k0, ss) :: addCode rest k s

/-- Accumulating loop of `get_platform_codes`. -/
def gpcAux (acc : CodesDict) : List Bytes → CodesDict
  | [] => acc
  | fw :: rest =>
    gpcAux (match blobCode fw with
      | none => acc
      | some ks => addCode acc ks.1 ks.2) rest

/-- `get_platform_codes(fw_versions)`: fold every blob contribution into
the codes dictionary. -/
def get_platform_codes (fw_versions : List Bytes) : CodesDict :=
  gpcAux [] fw_versions

/-- Membership of a (key, sub-version) pair in a codes dictionary. -/
def MemCode (d : CodesDict) (k s : Bytes) : Prop :=
  ∃ ss, (k, ss) ∈ d ∧ s ∈ ss

/-- Key membership in a codes dictionary (Python `in` on the dict). -/
def HasKey (d : CodesDict) (k : Bytes) : Prop :=
  ∃ ss, (k, ss) ∈ d

/-- Executable key membership, used by the matcher. -/
def keyMem (d : CodesDict) (k : Bytes) : Bool :=
  d.any (fun kv => decide (kv.1 = k))

/-- `live_fw_versions.get(addr, set())`: lookup with empty default. -/
def liveGet (live : LiveFw) (a : Nat × Option Nat) : List Bytes :=
  match live with
  | [] => []
  | (a0, vs) :: rest => if a0 = a then vs else liveGet rest a

/-- The per-ECU check of the matcher loop:
`any(found_platform_code in expected_platform_codes for found_platform_code in found_platform_codes)`. -/
def ecuPasses (live : LiveFw) (e : EcuKey) (expected_versions : List Bytes) : Bool :=
  (get_platform_codes (liveGet live (e.addr, e.subAddr))).any
    (fun kv => keyMem (get_platform_codes expected_versions) kv.1)

/-- The addresses accumulated in `valid_found_ecus`: ECUs outside
`PLATFORM_CODE_ECUS` are skipped (`continue`), a passing ECU adds its
address, and a failing ECU stops the loop (`break`), so later addresses
are not added. -/
def collectFound (live : LiveFw) : Fw → List (Nat × Option Nat)
  | [] => []
  | (e, vs) :: rest =>
    if e.kind ∈ PLATFORM_CODE_ECUS then
      if ecuPasses live e vs then (e.addr, e.subAddr) :: collectFound live rest
      else []
    else collectFound live rest

/-- `valid_expected_ecus`: the addresses of the platform-code-bearing
ECUs of a candidate entry. -/
def validExpected (fws : Fw) : List (Nat × Option Nat) :=
  (fws.filter (fun p => decide (p.1.kind ∈ PLATFORM_CODE_ECUS))).map
    (fun p => (p.1.addr, p.1.subAddr))

/-- `valid_expected_ecus.issubset(valid_found_ecus)` for one candidate. -/
def candidateMatches (live : LiveFw) (fws : Fw) : Bool :=
  (validExpected fws).all (fun a => decide (a ∈ collectFound live fws))

/-- `match_fw_to_car_fuzzy(live_fw_versions)`.  The module-level catalog
`FW_VERSIONS` and exclusion set `FUZZY_EXCLUDED_PLATFORMS` are explicit
parameters of the embedding.  Returns the accepted candidate names with
the excluded ones removed. -/
def match_fw_to_car_fuzzy (catalog : Catalog) (excluded : List String)
    (live : LiveFw) : List String :=
  ((catalog.filter (fun cf => candidateMatches live cf.2)).map Prod.fst).filter
    (fun c => decide (c ∉ excluded))

/-- ASCII bytes of a string, to transcribe the byte literals of the source. -/
def asciiBytes (s : String) : Bytes :=
  s.data.map Char.toNat

/-- The single catalog entry `FW_VERSIONS[CAR.RSG_OFFROAD]` of the source. -/
def rsgFws : Fw :=
  [(⟨EcuKind.abs, 0x7b0, none⟩,
      [asciiBytes ("F152607060") ++ List.replicate 6 0]),
   (⟨EcuKind.dsu, 0x791, none⟩,
      [asciiBytes ("881510701300") ++ List.replicate 4 0,
       asciiBytes ("881510705100") ++ List.replicate 4 0,
       asciiBytes ("881510705200") ++ List.replicate 4 0]),
   (⟨EcuKind.eps, 0x7a1, none⟩,
      [asciiBytes ("8965B41051") ++ List.replicate 6 0]),
   (⟨EcuKind.engine, 0x7e0, none⟩,
      [2 :: (asciiBytes ("30721100") ++ List.replicate 8 0 ++
             asciiBytes ("A0C01000") ++ List.replicate 8 0),
       2 :: (asciiBytes ("30721200") ++ List.replicate 8 0 ++
             asciiBytes ("A0C01000") ++ List.replicate 8 0)]),
   (⟨EcuKind.fwdRadar, 0x750, some 0xf⟩,
      [asciiBytes ("8821F4702000") ++ List.replicate 4 0,
       asciiBytes ("8821F4702100") ++ List.replicate 4 0]),
   (⟨EcuKind.fwdCamera, 0x750, some 0x6d⟩,
      [asciiBytes ("8646F0701100") ++ List.replicate 4 0,
       asciiBytes ("8646F0703000") ++ List.replicate 4 0])]

/-- `str(CAR.RSG_OFFROAD)`: the value of the `StrEnum` member. -/
def carRsgOffroad : String := "CUSTOM 4Runner RSG Offroad"

/-- The concrete `FW_VERSIONS` catalog of the source file. -/
def FW_VERSIONS : Catalog := [(carRsgOffroad, rsgFws)]

/-! Embedding of `retrofitcan.py`. -/

/-- `toyota_checksum(addr, dat, len)`: byte sum plus address bytes plus
length, truncated to one byte. -/
def toyota_checksum (addr : Nat) (dat : List Nat) (len : Nat) : Nat :=
  (dat.foldl (fun a b => a + b) 0 + (addr % 256) + addr / 256 + len) % 256

/-- The value returned by `packer.make_can_msg(name, bus, values)`,
kept abstract as the message name, bus and signal values. -/
structure CanMsg where
  name : String
  bus : Nat
  values : List (String × Int)
deriving DecidableEq

/-- Python dictionary subscript `values[k]`: raises `KeyError` when the
key is absent, modelled in the `Except` monad. -/
def dictGet (d : List (String × Int)) (k : String) : Except String Int :=
  match d with
  | [] => Except.error ("KeyError: " ++ k)
  | (k0, v) :: rest => if k0 = k then Except.ok v else dictGet rest k

/-- Python `x | y` on the non-negative ints this code produces. -/
def pyOr (a b : Int) : Int :=
  Int.ofNat (Nat.lor a.toNat b.toNat)

/-- `create_toyota_steer_command(packer, steer, steer_req)`.  Python
`&` with an all-ones mask is `%` of the next power of two, `<< n` is
multiplication by `2 ^ n` and `>> n` is floor division, which Lean Int
`/` and `%` (Euclidean, positive divisors) reproduce exactly.  The
subscript `values["TOYOTA_COUNTER"]` is evaluated before any message is
packed. -/
def create_toyota_steer_command (steer steer_req : Int) : Except String CanMsg := do
  let values : List (String × Int) :=
    [("STEER_REQUEST", steer_req), ("STEER_TORQUE_CMD", steer), ("SET_ME_1", 1)]
  let vreq ← dictGet values ("STEER_REQUEST")
  let vcnt ← dictGet values ("TOYOTA_COUNTER")
  let vone ← dictGet values ("SET_ME_1")
  let dat1 := pyOr (pyOr (vreq % 2) ((vcnt * 2) % 64)) ((vone * 128) % 2)
  let vcmd ← dictGet values ("STEER_TORQUE_CMD")
  let dat2 := (vcmd / 256) % 256
  let dat3 := vcmd % 256
  let dat := [dat1, dat2, dat3]
  let values2 := values ++
    [("TOYOTA_CHECKSUM", Int.ofNat (toyota_checksum 0x2E4 (dat.map Int.toNat) 5))]
  return CanMsg.mk ("STEERING_LKA") 0 values2

/-! Helper lemmas about the codes dictionary. -/

lemma memCode_nil (k s : Bytes) : ¬ MemCode [] k s := by
  rintro ⟨ss, h, _⟩
  simp at h

lemma memCode_cons (k0 : Bytes) (ss0 : List Bytes) (d : CodesDict) (k1 s1 : Bytes) :
    MemCode ((k0, ss0) :: d) k1 s1 ↔ (k1 = k0 ∧ s1 ∈ ss0) ∨ MemCode d k1 s1 := by
  simp only [MemCode, List.mem_cons, Prod.mk.injEq]
  aesop

lemma hasKey_cons (k0 : Bytes) (ss0 : List Bytes) (d : CodesDict) (k1 : Bytes) :
    HasKey ((k0, ss0) :: d) k1 ↔ k1 = k0 ∨ HasKey d k1 := by
  simp only [HasKey, List.mem_cons, Prod.mk.injEq]
  aesop

lemma memCode_addCode (d : CodesDict) (k s k1 s1 : Bytes) :
    MemCode (addCode d k s) k1 s1 ↔ MemCode d k1 s1 ∨ (k1 = k ∧ s1 = s) := by
  induction d with
  | nil =>
    simp only [addCode, MemCode, List.mem_singleton, List.not_mem_nil, false_and,
      exists_const, false_or, Prod.mk.injEq]
    aesop
  | cons p rest ih =>
    obtain ⟨k0, ss0⟩ := p
    by_cases hk0 : k0 = k
    · subst hk0
      by_cases hss : s ∈ ss0
      · rw [show addCode ((k0, ss0) :: rest) k0 s = (k0, ss0) :: rest by
          simp [addCode, hss]]
        simp only [memCode_cons]
        constructor
        · exact Or.inl
        · rintro (h | ⟨hk1, hs1⟩)
          · exact h
          · exact Or.inl ⟨hk1, hs1 ▸ hss⟩
      · rw [show addCode ((k0, ss0) :: rest) k0 s = (k0, ss0 ++ [s]) :: rest by
          simp [addCode, hss]]
        simp only [memCode_cons, List.mem_append, List.mem_singleton]
        tauto
    · rw [show addCode ((k0, ss0) :: rest) k s = (k0, ss0) :: addCode rest k s by
        simp [addCode, hk0]]
      simp only [memCode_cons, ih]
      tauto

lemma hasKey_addCode (d : CodesDict) (k s k1 : Bytes) :
    HasKey (addCode d k s) k1 ↔ HasKey d k1 ∨ k1 = k := by
  induction d with
  | nil =>
    simp only [addCode, HasKey, List.mem_singleton, List.not_mem_nil, exists_const,
      false_or, Prod.mk.injEq]
    aesop
  | cons p rest ih =>
    obtain ⟨k0, ss0⟩ := p
    by_cases hk0 : k0 = k
    · subst hk0
      rw [show addCode ((k0, ss0) :: rest) k0 s =
          (k0, if s ∈ ss0 then ss0 else ss0 ++ [s]) :: rest by
        simp [addCode]]
      simp only [hasKey_cons]
      tauto
    · rw [show addCode ((k0, ss0) :: rest) k s = (k0, ss0) :: addCode rest k s by
        simp [addCode, hk0]]
      simp only [hasKey_cons, ih]
      tauto

lemma memCode_gpcAux (l : List Bytes) : ∀ acc k s,
    MemCode (gpcAux acc l) k s ↔ MemCode acc k s ∨ ∃ fw ∈ l, blobCode fw = some (k, s) := by
  induction l with
  | nil => intro acc k s; simp [gpcAux]
  | cons fw rest ih =>
    intro acc k s
    simp only [gpcAux]
    rcases hb : blobCode fw with _ | ks
    · rw [ih]
      constructor
      · rintro (h | h)
        · exact Or.inl h
        · exact Or.inr (by obtain ⟨fw2, h2, h3⟩ := h; exact ⟨fw2, List.mem_cons_of_mem _ h2, h3⟩)
      · rintro (h | ⟨fw2, h2, h3⟩)
        · exact Or.inl h
        · rcases List.mem_cons.mp h2 with h2 | h2
          · subst h2; rw [hb] at h3; cases h3
          · exact Or.inr ⟨fw2, h2, h3⟩
    · obtain ⟨k0, s0⟩ := ks
      rw [ih, memCode_addCode]
      constructor
      · rintro ((h | ⟨hk, hs⟩) | h)
        · exact Or.inl h
        · exact Or.inr ⟨fw, List.mem_cons_self .., by rw [hb, hk, hs]⟩
        · exact Or.inr (by obtain ⟨fw2, h2, h3⟩ := h; exact ⟨fw2, List.mem_cons_of_mem _ h2, h3⟩)
      · rintro (h | ⟨fw2, h2, h3⟩)
        · exact Or.inl (Or.inl h)
        · rcases List.mem_cons.mp h2 with h2 | h2
          · subst h2
            rw [hb] at h3
            rcases Option.some.injEq .. ▸ h3 with h3
            exact Or.inl (Or.inr ⟨(Prod.mk.injEq .. ▸ h3.symm).1, (Prod.mk.injEq .. ▸ h3.symm).2⟩)
          · exact Or.inr ⟨fw2, h2, h3⟩

lemma hasKey_gpcAux (l : List Bytes) : ∀ acc k,
    HasKey (gpcAux acc l) k ↔ HasKey acc k ∨ ∃ fw ∈ l, ∃ s, blobCode fw = some (k, s) := by
  induction l with
  | nil => intro acc k; simp [gpcAux]
  | cons fw rest ih =>
    intro acc k
    simp only [gpcAux]
    rcases hb : blobCode fw with _ | ks
    · rw [ih]
      constructor
      · rintro (h | ⟨fw2, h2, h3⟩)
        · exact Or.inl h
        · exact Or.inr ⟨fw2, List.mem_cons_of_mem _ h2, h3⟩
      · rintro (h | ⟨fw2, h2, h3⟩)
        · exact Or.inl h
        · rcases List.mem_cons.mp h2 with h2 | h2
          · subst h2; obtain ⟨s, h3⟩ := h3; rw [hb] at h3; cases h3
          · exact Or.inr ⟨fw2, h2, h3⟩
    · obtain ⟨k0, s0⟩ := ks
      rw [ih, hasKey_addCode]
      constructor
      · rintro ((h | hk) | ⟨fw2, h2, h3⟩)
        · exact Or.inl h
        · exact Or.inr ⟨fw, List.mem_cons_self .., s0, by rw [hb, hk]⟩
        · exact Or.inr ⟨fw2, List.mem_cons_of_mem _ h2, h3⟩
      · rintro (h | ⟨fw2, h2, h3⟩)
        · exact Or.inl (Or.inl h)
        · rcases List.mem_cons.mp h2 with h2 | h2
          · subst h2
            obtain ⟨s, h3⟩ := h3
            rw [hb] at h3
            rcases Option.some.injEq .. ▸ h3 with h3
            exact Or.inl (Or.inr (Prod.mk.injEq .. ▸ h3.symm).1)
          · exact Or.inr ⟨fw2, h2, h3⟩

/-- Membership characterization of `get_platform_codes`. -/
lemma memCode_gpc (l : List Bytes) (k s : Bytes) :
    MemCode (get_platform_codes l) k s ↔ ∃ fw ∈ l, blobCode fw = some (k, s) := by
  rw [get_platform_codes, memCode_gpcAux]
  simp only [memCode_nil, false_or]

/-- Key-membership characterization of `get_platform_codes`. -/
lemma hasKey_gpc (l : List Bytes) (k : Bytes) :
    HasKey (get_platform_codes l) k ↔ ∃ fw ∈ l, ∃ s, blobCode fw = some (k, s) := by
  rw [get_platform_codes, hasKey_gpcAux]
  constructor
  · rintro (⟨ss, h⟩ | h)
    · simp at h
    · exact h
  · exact Or.inr

/-- A blob with no contribution is skipped by the fold. -/
lemma gpcAux_skip (fw : Bytes) (hb : blobCode fw = none) :
    ∀ pre acc post, gpcAux acc (pre ++ fw :: post) = gpcAux acc (pre ++ post) := by
  intro pre
  induction pre with
  | nil =>
    intro acc post
    simp [gpcAux, hb]
  | cons g rest ih =>
    intro acc post
    simp only [List.cons_append, gpcAux]
    exact ih _ _

/-- A blob with no contribution changes nothing in `get_platform_codes`. -/
lemma gpc_skip (fw : Bytes) (hb : blobCode fw = none) (pre post : List Bytes) :
    get_platform_codes (pre ++ fw :: post) = get_platform_codes (pre ++ post) :=
  gpcAux_skip fw hb pre [] post

/-- `get_platform_codes` on a single blob. -/
lemma gpc_singleton (fw : Bytes) :
    get_platform_codes [fw] =
      (match blobCode fw with
        | none => []
        | some ks => [(ks.1, [ks.2])]) := by
  rcases hb : blobCode fw with _ | ks <;>
    simp [get_platform_codes, gpcAux, hb, addCode]

lemma keyMem_iff (d : CodesDict) (k : Bytes) : keyMem d k = true ↔ HasKey d k := by
  simp only [keyMem, List.any_eq_true, decide_eq_true_eq, HasKey]
  constructor
  · rintro ⟨⟨k2, ss2⟩, hm, hk⟩
    dsimp at hk
    subst hk
    exact ⟨ss2, hm⟩
  · rintro ⟨ss, hm⟩
    exact ⟨(k, ss), hm, rfl⟩

/-- A non-empty codes dictionary always intersects itself on keys (the
head key witnesses it). -/
lemma any_keyMem_self (d : CodesDict) (h : d ≠ []) :
    d.any (fun kv => keyMem d kv.1) = true := by
  cases d with
  | nil => exact absurd rfl h
  | cons kv rest =>
    simp only [List.any_cons, Bool.or_eq_true]
    left
    simp [keyMem]

/-! Helper lemmas about the matcher loop. -/

lemma mem_collectFound (live : LiveFw) (fws : Fw) (a : Nat × Option Nat)
    (h : a ∈ collectFound live fws) :
    ∃ e vs, (e, vs) ∈ fws ∧ e.kind ∈ PLATFORM_CODE_ECUS ∧ (e.addr, e.subAddr) = a ∧
      ecuPasses live e vs = true := by
  induction fws with
  | nil => simp [collectFound] at h
  | cons p rest ih =>
    obtain ⟨e, vs⟩ := p
    simp only [collectFound] at h
    by_cases hk : e.kind ∈ PLATFORM_CODE_ECUS
    · by_cases hp : ecuPasses live e vs = true
      · simp only [if_pos hk, hp, if_true] at h
        rcases List.mem_cons.mp h with h | h
        · exact ⟨e, vs, List.mem_cons_self .., hk, h.symm, hp⟩
        · obtain ⟨e2, vs2, h1, h2, h3, h4⟩ := ih h
          exact ⟨e2, vs2, List.mem_cons_of_mem _ h1, h2, h3, h4⟩
      · simp only [if_pos hk, hp] at h
        simp at h
    · simp only [if_neg hk] at h
      obtain ⟨e2, vs2, h1, h2, h3, h4⟩ := ih h
      exact ⟨e2, vs2, List.mem_cons_of_mem _ h1, h2, h3, h4⟩

/-- When every platform-code ECU of a candidate passes its check, the
loop never breaks and collects exactly the expected addresses. -/
lemma collectFound_of_all_pass (live : LiveFw) (fws : Fw)
    (h : ∀ p ∈ fws, p.1.kind ∈ PLATFORM_CODE_ECUS → ecuPasses live p.1 p.2 = true) :
    collectFound live fws = validExpected fws := by
  induction fws with
  | nil => rfl
  | cons p rest ih =>
    obtain ⟨e, vs⟩ := p
    have hrest : ∀ q ∈ rest, q.1.kind ∈ PLATFORM_CODE_ECUS → ecuPasses live q.1 q.2 = true :=
      fun q hq => h q (List.mem_cons_of_mem _ hq)
    by_cases hk : e.kind ∈ PLATFORM_CODE_ECUS
    · have hp : ecuPasses live e vs = true := h (e, vs) (List.mem_cons_self ..) hk
      simp only [collectFound, if_pos hk, hp, if_true, validExpected, List.filter_cons,
        decide_eq_true_eq]
      rw [ih hrest]
      simp [validExpected, hk]
    · simp only [collectFound, if_neg hk, validExpected, List.filter_cons]
      rw [ih hrest]
      simp [validExpected, hk]

/-- Membership in the fuzzy match result: the candidate has an accepted
catalog entry and is not excluded. -/
lemma mem_match_iff (catalog : Catalog) (excluded : List String) (live : LiveFw)
    (c : String) :
    c ∈ match_fw_to_car_fuzzy catalog excluded live ↔
      (∃ fws, (c, fws) ∈ catalog ∧ candidateMatches live fws = true) ∧ c ∉ excluded := by
  simp only [match_fw_to_car_fuzzy, List.mem_filter, List.mem_map, decide_eq_true_eq]
  constructor
  · rintro ⟨⟨⟨c0, fws0⟩, ⟨hmem, hcm⟩, hfst⟩, hex⟩
    dsimp at hfst hcm
    subst hfst
    exact ⟨⟨fws0, hmem, hcm⟩, hex⟩
  · rintro ⟨⟨fws0, hmem, hcm⟩, hex⟩
    exact ⟨⟨(c, fws0), ⟨hmem, hcm⟩, rfl⟩, hex⟩

/-- A candidate whose live data equals its catalog data on every
platform-code ECU, each yielding at least one platform code, is accepted. -/
lemma candidateMatches_of_identical (live : LiveFw) (fws : Fw)
    (h : ∀ p ∈ fws, p.1.kind ∈ PLATFORM_CODE_ECUS →
      liveGet live (p.1.addr, p.1.subAddr) = p.2 ∧ get_platform_codes p.2 ≠ []) :
    candidateMatches live fws = true := by
  have hall : ∀ p ∈ fws, p.1.kind ∈ PLATFORM_CODE_ECUS → ecuPasses live p.1 p.2 = true := by
    intro p hp hk
    obtain ⟨hlive, hne⟩ := h p hp hk
    rw [ecuPasses, hlive]
    have := any_keyMem_self (get_platform_codes p.2) hne
    refine Eq.trans ?_ this
    congr 1
  rw [candidateMatches, collectFound_of_all_pass live fws hall]
  simp only [List.all_eq_true, decide_eq_true_eq]
  exact fun a ha => ha

/-- A candidate with a platform-code ECU whose address has no live
blobs is rejected: the empty found set fails the intersection check. -/
lemma candidateMatches_empty_addr (live : LiveFw) (fws : Fw) (e : EcuKey) (vs : List Bytes)
    (hmem : (e, vs) ∈ fws) (hk : e.kind ∈ PLATFORM_CODE_ECUS)
    (hempty : liveGet live (e.addr, e.subAddr) = []) :
    candidateMatches live fws = false := by
  rcases Bool.eq_false_or_eq_true (candidateMatches live fws) with hcm2 | h
  case inr => exact h
  case inl =>
    exfalso
    have haddr : (e.addr, e.subAddr) ∈ validExpected fws := by
      simp only [validExpected, List.mem_map]
      exact ⟨(e, vs), List.mem_filter.mpr ⟨hmem, by simpa using hk⟩, rfl⟩
    rw [candidateMatches] at hcm2
    have hfound : (e.addr, e.subAddr) ∈ collectFound live fws := by
      have := (List.all_eq_true.mp hcm2) _ haddr
      simpa using this
    obtain ⟨e2, vs2, _, _, haeq, hpass⟩ := mem_collectFound live fws _ hfound
    rw [ecuPasses] at hpass
    have haddr2 : (e2.addr, e2.subAddr) = (e.addr, e.subAddr) := haeq
    rw [haddr2, hempty] at hpass
    simp [get_platform_codes, gpcAux] at hpass

/-- An observed fingerprint exactly mirroring the catalog entry of the
RSG Offroad candidate, used to instantiate matcher theorems. -/
def rsgLive : LiveFw :=
  rsgFws.map (fun p => ((p.1.addr, p.1.subAddr), p.2))

/-- C1: an observed fingerprint byte-for-byte identical to the
candidate catalog entry on every platform-code-bearing ECU makes
`match_fw_to_car_fuzzy` return that candidate, unless it is excluded.
For the catalog of this module every required ECU entry parses to at
least one platform code, so the identical found set is non-empty and
every per-ECU intersection check passes. -/
theorem fuzzy_match_identical_fingerprint (live : LiveFw) (excluded : List String)
    (hid : ∀ p ∈ rsgFws, p.1.kind ∈ PLATFORM_CODE_ECUS →
      liveGet live (p.1.addr, p.1.subAddr) = p.2)
    (hex : carRsgOffroad ∉ excluded) :
    carRsgOffroad ∈ match_fw_to_car_fuzzy FW_VERSIONS excluded live := by
  refine (mem_match_iff FW_VERSIONS excluded live carRsgOffroad).mpr ⟨⟨rsgFws, ?_, ?_⟩, hex⟩
  · simp [FW_VERSIONS]
  · apply candidateMatches_of_identical
    intro p hp hk
    refine ⟨hid p hp hk, ?_⟩
    have hne : ∀ p ∈ rsgFws, p.1.kind ∈ PLATFORM_CODE_ECUS →
        get_platform_codes p.2 ≠ [] := by decide
    exact hne p hp hk

theorem fuzzy_match_identical_fingerprint_witness :
    (∀ p ∈ rsgFws, p.1.kind ∈ PLATFORM_CODE_ECUS →
      liveGet rsgLive (p.1.addr, p.1.subAddr) = p.2) ∧
    carRsgOffroad ∉ ([] : List String) ∧
    carRsgOffroad ∈ match_fw_to_car_fuzzy FW_VERSIONS [] rsgLive :=
  ⟨by decide, by decide,
    fuzzy_match_identical_fingerprint rsgLive [] (by decide) (by decide)⟩

/-- C2: for every catalog, exclusion set and observed fingerprint, no
member of the exclusion set appears in the result of
`match_fw_to_car_fuzzy`: the final set difference removes it. -/
theorem fuzzy_match_never_returns_excluded (catalog : Catalog) (excluded : List String)
    (live : LiveFw) (c : String) (h : c ∈ excluded) :
    c ∉ match_fw_to_car_fuzzy catalog excluded live := by
  intro hc
  exact ((mem_match_iff catalog excluded live c).mp hc).2 h

theorem fuzzy_match_never_returns_excluded_witness :
    carRsgOffroad ∈ [carRsgOffroad] ∧
    carRsgOffroad ∉ match_fw_to_car_fuzzy FW_VERSIONS [carRsgOffroad] rsgLive :=
  ⟨List.mem_singleton.mpr rfl,
    fuzzy_match_never_returns_excluded FW_VERSIONS [carRsgOffroad] rsgLive carRsgOffroad
      (List.mem_singleton.mpr rfl)⟩

/-- C3: a platform-code-bearing ECU of the candidate entry with no
observed blobs at its address (absent key or empty list) makes the
candidate fail the per-ECU check, so the candidate is not returned. -/
theorem fuzzy_match_rejects_missing_ecu (live : LiveFw) (excluded : List String)
    (e : EcuKey) (vs : List Bytes) (hmem : (e, vs) ∈ rsgFws)
    (hk : e.kind ∈ PLATFORM_CODE_ECUS)
    (hempty : liveGet live (e.addr, e.subAddr) = []) :
    carRsgOffroad ∉ match_fw_to_car_fuzzy FW_VERSIONS excluded live := by
  intro hc
  obtain ⟨⟨fws0, hmem0, hcm⟩, _⟩ :=
    (mem_match_iff FW_VERSIONS excluded live carRsgOffroad).mp hc
  have hfws : fws0 = rsgFws := by
    simpa [FW_VERSIONS] using hmem0
  rw [hfws] at hcm
  rw [candidateMatches_empty_addr live rsgFws e vs hmem hk hempty] at hcm
  cases hcm

theorem fuzzy_match_rejects_missing_ecu_witness :
    ((⟨EcuKind.abs, 0x7b0, none⟩,
        [asciiBytes ("F152607060") ++ List.replicate 6 0]) ∈ rsgFws) ∧
    EcuKind.abs ∈ PLATFORM_CODE_ECUS ∧
    liveGet [] (0x7b0, none) = [] ∧
    carRsgOffroad ∉ match_fw_to_car_fuzzy FW_VERSIONS [] [] :=
  ⟨by decide, by decide, rfl,
    fuzzy_match_rejects_missing_ecu [] [] ⟨EcuKind.abs, 0x7b0, none⟩
      [asciiBytes ("F152607060") ++ List.replicate 6 0] (by decide) (by decide) rfl⟩

/-- C4: the platform codes of a blob depend only on the length-prefix
byte and the first 16-byte payload chunk: two blobs with the same chunk
count, both of valid payload length, agreeing on the first 16 payload
bytes, yield the same result regardless of later chunks. -/
theorem platform_codes_first_chunk_only (fw1 fw2 : Bytes) (lc : Nat) (p1 p2 : Bytes)
    (h1 : splitLenCode fw1 = (lc, p1)) (h2 : splitLenCode fw2 = (lc, p2))
    (hl1 : p1.length = lc * FW_CHUNK_LEN) (hl2 : p2.length = lc * FW_CHUNK_LEN)
    (hfirst : p1.take FW_CHUNK_LEN = p2.take FW_CHUNK_LEN) :
    get_platform_codes [fw1] = get_platform_codes [fw2] := by
  have hb : blobCode fw1 = blobCode fw2 := by
    unfold blobCode
    rw [h1, h2]
    dsimp only
    rw [hl1, hl2, hfirst]
  rw [gpc_singleton, gpc_singleton, hb]

theorem platform_codes_first_chunk_only_witness :
    splitLenCode (2 :: (asciiBytes ("30721100") ++ List.replicate 8 0 ++
        List.replicate 16 65)) =
      (2, asciiBytes ("30721100") ++ List.replicate 8 0 ++ List.replicate 16 65) ∧
    get_platform_codes
        [2 :: (asciiBytes ("30721100") ++ List.replicate 8 0 ++ List.replicate 16 65)] =
      get_platform_codes
        [2 :: (asciiBytes ("30721100") ++ List.replicate 8 0 ++ List.replicate 16 66)] :=
  ⟨by decide,
    platform_codes_first_chunk_only _ _ 2
      (asciiBytes ("30721100") ++ List.replicate 8 0 ++ List.replicate 16 65)
      (asciiBytes ("30721100") ++ List.replicate 8 0 ++ List.replicate 16 66)
      (by decide) (by decide) (by decide) (by decide) (by decide)⟩

/-- C5: a blob of valid length whose trimmed first chunk is the ten
bytes F152607060 classifies under the medium template with
part F1526, platform 07, major version 0 and sub-version 60: the
returned dictionary is exactly the key F1526-07-0 with sub-version
set containing only 60. -/
theorem medium_pattern_literal (fw : Bytes)
    (hvalid : (splitLenCode fw).1 * FW_CHUNK_LEN = (splitLenCode fw).2.length)
    (hchunk : stripBytes ((splitLenCode fw).2.take FW_CHUNK_LEN) =
      asciiBytes ("F152607060")) :
    get_platform_codes [fw] =
      [(asciiBytes ("F1526-07-0"), [asciiBytes ("60")])] := by
  have hb : blobCode fw = some (asciiBytes ("F1526-07-0"), asciiBytes ("60")) := by
    unfold blobCode
    dsimp only
    rw [if_neg (fun hne => hne hvalid), hchunk]
    decide
  rw [gpc_singleton, hb]

theorem medium_pattern_literal_witness :
    (splitLenCode (asciiBytes ("F152607060") ++ List.replicate 6 0)).1 * FW_CHUNK_LEN =
      (splitLenCode (asciiBytes ("F152607060") ++ List.replicate 6 0)).2.length ∧
    get_platform_codes [asciiBytes ("F152607060") ++ List.replicate 6 0] =
      [(asciiBytes ("F1526-07-0"), [asciiBytes ("60")])] :=
  ⟨by decide, medium_pattern_literal _ (by decide) (by decide)⟩

/-- C6 counterexample: the short pattern does not ignore the first
byte.  A trimmed 8-byte chunk whose seven field bytes are all in
[A-Z0-9] but whose first byte is 33 (the exclamation mark) fails
extraction, because the regex also requires the leading byte to be in
the class, and the blob built from it contributes nothing. -/
theorem short_pattern_ignored_byte_cex :
    (([33, 65, 66, 49, 50, 51, 52, 53] : Bytes).drop 1).all isUpperDigit = true ∧
    ([33, 65, 66, 49, 50, 51, 52, 53] : Bytes).length = 8 ∧
    matchShort [33, 65, 66, 49, 50, 51, 52, 53] = none ∧
    get_platform_codes [[33, 65, 66, 49, 50, 51, 52, 53, 0, 0, 0, 0, 0, 0, 0, 0]] = [] := by
  decide

/-- C6 amended: on a trimmed first chunk of exactly 8 bytes,
extraction succeeds if and only if all eight bytes, the leading one
included, are in [A-Z0-9]; on success it contributes the code
platform-major_version (bytes 1-2 and 3-4, no part number) with the
3-byte sub_version (bytes 5-7), and otherwise the chunk contributes
nothing to the result of `get_platform_codes` and no error is raised. -/
theorem short_pattern_extraction_charset (c : Bytes) (h : c.length = 8) :
    (c.all isUpperDigit = true →
      matchShort c = some (((c.drop 1).take 2) ++ 45 :: ((c.drop 3).take 2),
        (c.drop 5).take 3)) ∧
    (c.all isUpperDigit = false → matchShort c = none) ∧
    (∀ fw, (splitLenCode fw).1 * FW_CHUNK_LEN = (splitLenCode fw).2.length →
      stripBytes ((splitLenCode fw).2.take FW_CHUNK_LEN) = c →
      get_platform_codes [fw] =
        (match matchShort c with
          | some ks => [(ks.1, [ks.2])]
          | none => [])) := by
  refine ⟨?_, ?_, ?_⟩
  · intro hall
    rw [matchShort, if_pos ⟨h, hall⟩]
  · intro hall
    rw [matchShort, if_neg]
    rintro ⟨-, h2⟩
    rw [hall] at h2
    cases h2
  · intro fw hvalid hchunk
    have hb : blobCode fw = matchShort c := by
      unfold blobCode
      dsimp only
      rw [if_neg (fun hne => hne hvalid), hchunk, if_pos h]
    rw [gpc_singleton, hb]
    rcases matchShort c with _ | ks
    · rfl
    · rfl

theorem short_pattern_extraction_charset_witness :
    (asciiBytes ("30721100")).length = 8 ∧
    matchShort (asciiBytes ("30721100")) =
      some (asciiBytes ("07-21"), asciiBytes ("100")) ∧
    get_platform_codes [asciiBytes ("30721100") ++ List.replicate 8 0] =
      [(asciiBytes ("07-21"), [asciiBytes ("100")])] := by
  have hmain := short_pattern_extraction_charset (asciiBytes ("30721100")) (by decide)
  refine ⟨by decide, ?_, ?_⟩
  · rw [hmain.1 (by decide)]
    decide
  · rw [hmain.2.2 (asciiBytes ("30721100") ++ List.replicate 8 0) (by decide) (by decide)]
    decide

/-- C7: the chunk count is the first byte when it lies in 1..3 (the
payload being the rest), and 1 otherwise (the payload being the whole
blob); a blob whose payload length differs from chunk count times 16
contributes nothing to `get_platform_codes`, and no exception occurs
(the embedding is total). -/
theorem chunk_length_gate (fw : Bytes) :
    ((∃ b rest, fw = b :: rest ∧ 1 ≤ b ∧ b ≤ 3 ∧ splitLenCode fw = (b, rest)) ∨
      (splitLenCode fw = (1, fw) ∧ ∀ b rest, fw = b :: rest → ¬(1 ≤ b ∧ b ≤ 3))) ∧
    ((splitLenCode fw).1 * FW_CHUNK_LEN ≠ (splitLenCode fw).2.length →
      ∀ pre post, get_platform_codes (pre ++ fw :: post) = get_platform_codes (pre ++ post)) := by
  constructor
  · match fw with
    | [] => exact Or.inr ⟨rfl, fun b rest h => by cases h⟩
    | b :: rest =>
      by_cases hb : 1 ≤ b ∧ b ≤ 3
      · exact Or.inl ⟨b, rest, rfl, hb.1, hb.2, by rw [splitLenCode, if_pos hb]⟩
      · refine Or.inr ⟨by rw [splitLenCode, if_neg hb], ?_⟩
        rintro b2 rest2 heq hb2
        rcases List.cons.injEq .. ▸ heq with ⟨hb3, -⟩
        exact hb (hb3 ▸ hb2)
  · intro hne pre post
    apply gpc_skip
    rw [blobCode]
    dsimp only
    rw [if_pos hne]

theorem chunk_length_gate_witness :
    splitLenCode [5] = (1, [5]) ∧
    (splitLenCode [5]).1 * FW_CHUNK_LEN ≠ (splitLenCode [5]).2.length ∧
    get_platform_codes [[5]] = [] := by
  have hmain := chunk_length_gate [5]
  refine ⟨by decide, by decide, ?_⟩
  have h2 := hmain.2 (by decide) [] []
  simpa using h2

/-- C8: `get_platform_codes` is total by construction (it is a Lean
function, so no input raises), the chunk count is always at least 1, so
taking the first chunk is safe, and any blob whose trimmed first chunk
is shorter than 8 bytes contributes nothing to the result. -/
theorem get_platform_codes_total_short_chunk (fw : Bytes) :
    1 ≤ (splitLenCode fw).1 ∧
    ((stripBytes ((splitLenCode fw).2.take FW_CHUNK_LEN)).length < 8 →
      ∀ pre post, get_platform_codes (pre ++ fw :: post) = get_platform_codes (pre ++ post)) := by
  constructor
  · match fw with
    | [] => exact Nat.le_refl 1
    | b :: rest =>
      rw [splitLenCode]
      by_cases hb : 1 ≤ b ∧ b ≤ 3
      · rw [if_pos hb]
        exact hb.1
      · rw [if_neg hb]
  · intro hshort pre post
    apply gpc_skip
    rw [blobCode]
    dsimp only
    by_cases hne : (splitLenCode fw).1 * FW_CHUNK_LEN ≠ (splitLenCode fw).2.length
    · rw [if_pos hne]
    · rw [if_neg hne]
      have h8 : ¬(stripBytes ((splitLenCode fw).2.take FW_CHUNK_LEN)).length = 8 := by omega
      have h10 : ¬(stripBytes ((splitLenCode fw).2.take FW_CHUNK_LEN)).length = 10 := by omega
      have h12 : ¬(stripBytes ((splitLenCode fw).2.take FW_CHUNK_LEN)).length = 12 := by omega
      rw [if_neg h8, if_neg h10, if_neg h12]

theorem get_platform_codes_total_short_chunk_witness :
    1 ≤ (splitLenCode []).1 ∧
    (stripBytes ((splitLenCode []).2.take FW_CHUNK_LEN)).length < 8 ∧
    get_platform_codes [[]] = [] := by
  have hmain := get_platform_codes_total_short_chunk []
  refine ⟨hmain.1, by decide, ?_⟩
  have h2 := hmain.2 (by decide) [] []
  simpa using h2

/-- C9: the codes dictionary built by `get_platform_codes` is a pure
set union: two blob lists with the same members (any permutation, with
any duplication) give the same mapping, both on (key, sub-version)
pairs and on keys. -/
theorem gpc_set_invariant (l1 l2 : List Bytes)
    (h : (∀ b ∈ l1, b ∈ l2) ∧ (∀ b ∈ l2, b ∈ l1)) :
    (∀ k s, MemCode (get_platform_codes l1) k s ↔ MemCode (get_platform_codes l2) k s) ∧
    (∀ k, HasKey (get_platform_codes l1) k ↔ HasKey (get_platform_codes l2) k) := by
  obtain ⟨h12, h21⟩ := h
  constructor
  · intro k s
    rw [memCode_gpc, memCode_gpc]
    constructor
    · rintro ⟨fw, hm, hb⟩
      exact ⟨fw, h12 fw hm, hb⟩
    · rintro ⟨fw, hm, hb⟩
      exact ⟨fw, h21 fw hm, hb⟩
  · intro k
    rw [hasKey_gpc, hasKey_gpc]
    constructor
    · rintro ⟨fw, hm, hb⟩
      exact ⟨fw, h12 fw hm, hb⟩
    · rintro ⟨fw, hm, hb⟩
      exact ⟨fw, h21 fw hm, hb⟩

theorem gpc_set_invariant_witness :
    ((∀ b ∈ ([asciiBytes ("F152607060") ++ List.replicate 6 0,
              asciiBytes ("8965B41051") ++ List.replicate 6 0] : List Bytes),
        b ∈ ([asciiBytes ("8965B41051") ++ List.replicate 6 0,
              asciiBytes ("F152607060") ++ List.replicate 6 0,
              asciiBytes ("F152607060") ++ List.replicate 6 0] : List Bytes)) ∧
      (∀ b ∈ ([asciiBytes ("8965B41051") ++ List.replicate 6 0,
              asciiBytes ("F152607060") ++ List.replicate 6 0,
              asciiBytes ("F152607060") ++ List.replicate 6 0] : List Bytes),
        b ∈ ([asciiBytes ("F152607060") ++ List.replicate 6 0,
              asciiBytes ("8965B41051") ++ List.replicate 6 0] : List Bytes))) ∧
    (∀ k s,
      MemCode (get_platform_codes
        [asciiBytes ("F152607060") ++ List.replicate 6 0,
         asciiBytes ("8965B41051") ++ List.replicate 6 0]) k s ↔
      MemCode (get_platform_codes
        [asciiBytes ("8965B41051") ++ List.replicate 6 0,
         asciiBytes ("F152607060") ++ List.replicate 6 0,
         asciiBytes ("F152607060") ++ List.replicate 6 0]) k s) :=
  ⟨⟨by decide, by decide⟩,
    (gpc_set_invariant _ _ ⟨by decide, by decide⟩).1⟩

/-- C10: `create_toyota_steer_command` subscripts its values dictionary
with the key TOYOTA_COUNTER, which is never inserted (the dictionary
holds only STEER_REQUEST, STEER_TORQUE_CMD and SET_ME_1 at that point),
so every call raises the missing-key error and no message is ever
returned; `CarController.update` invokes it unconditionally each frame
(carcontroller.py line 88), so no frame can complete. -/
theorem toyota_steer_command_always_keyerror (steer steer_req : Int) :
    create_toyota_steer_command steer steer_req =
      Except.error ("KeyError: TOYOTA_COUNTER") := rfl

